import Mathlib

/-!
Verification development for the Firebase Realtime Database trigger core
(`src/providers/database.ts`): tree values, the delta applier, the array
inference normalizer and the `DeltaSnapshot` navigator, embedded shallowly.

Conventions of the embedding:
* JavaScript tree values (the `data` / `delta` payloads) are the inductive
  `TVal`: primitives or an ordered keyed mapping (association list, which is
  the iteration order of the underlying JS object).
* `undefined` (absence) is represented by `Option.none` where a lookup can
  fail, and by the empty string for the optional `_childPath` field.
* Machine numbers are modelled as `Int`; string keys as `String`.
* `_.cloneDeep` is the identity on pure values and is dropped.
-/

set_option autoImplicit false

namespace FirebaseDB

/-- A JSON-like tree value as stored in an event envelope: a primitive or an
ordered keyed mapping (`obj`), following the data model of the spec.  The
association list records the object's key iteration order. -/
inductive TVal where
  | null : TVal
  | bool : Bool → TVal
  | num : Int → TVal
  | str : String → TVal
  | obj : List (String × TVal) → TVal

/-- A value as returned by `DeltaSnapshot.val()`: like `TVal` but the array
inference normalizer may also produce JS arrays, whose entries can be holes
(`Option.none`). -/
inductive NVal where
  | null : NVal
  | bool : Bool → NVal
  | num : Int → NVal
  | str : String → NVal
  | obj : List (String × NVal) → NVal
  | arr : List (Option NVal) → NVal

/-- First entry of an association list with the given key (JS object keys are
unique, so first = only). -/
def lookupKey {α : Type} (es : List (String × α)) (k : String) : Option α :=
  match es with
  | [] => none
  | (k', v) :: rest => if k' = k then some v else lookupKey rest k

/-- The entries of a mapping; `[]` for every non-mapping value. -/
def TVal.objEntries : TVal → List (String × TVal)
  | .obj es => es
  | _ => []

/-! ### Path-string primitives

Modelled from the spec: `normalizePath`, `pathParts`, `joinPath` and `valAt`
live in the repository's `utils` module, which is not part of the sources
under verification; the spec specifies them as external collaborators with
the round-trip property `pathParts (normalizePath p) = pathParts p`
regardless of leading/trailing slash variation, and `joinPath` composing two
fragments into one path usable by `pathParts`. -/

/-- Split a character list at every `'/'`; segments may be empty. -/
def splitSlash : List Char → List (List Char)
  | [] => [[]]
  | c :: rest =>
    if c = '/' then [] :: splitSlash rest
    else
      match splitSlash rest with
      | [] => [[c]]
      | s :: ss => (c :: s) :: ss

/-- Modelled from the spec: `pathParts(path)` — the nonempty slash-separated
segments of a path string. -/
def pathParts (p : String) : List String :=
  ((splitSlash p.data).filter (fun s => s ≠ [])).map (fun s => String.mk s)

/-- Join segments with slashes. -/
def joinSegs : List String → String
  | [] => ""
  | [s] => s
  | s :: rest => s ++ "/" ++ joinSegs rest

/-- Modelled from the spec: `normalizePath(raw)` — a canonical form whose
segments are exactly `pathParts raw`, insensitive to duplicate, leading and
trailing slashes. -/
def normalizePath (p : String) : String :=
  "/" ++ joinSegs (pathParts p)

/-- Modelled from the spec: `joinPath(a, b)` — compose two path fragments
into one path usable by `pathParts`. -/
def joinPath (a b : String) : String :=
  normalizePath (a ++ "/" ++ b)

/-- Resolve a segment list inside a tree: `some` the subtree when every
segment exists, `none` (i.e. `undefined`) otherwise.  This is the traversal
both `_.get(source, parts)` and the spec's `valAt` perform on plain trees. -/
def getPath : TVal → List String → Option TVal
  | v, [] => some v
  | .obj es, k :: rest =>
    match lookupKey es k with
    | some v => getPath v rest
    | none => none
  | _, _ :: _ => none

/-- Modelled from the spec: `valAt(tree, path)` — value-or-undefined at a
slash-separated path. -/
def valAt (tree : TVal) (path : String) : Option TVal :=
  getPath tree (pathParts path)

/-! ### Decimal numerals

`Number(key)` on an integer-literal key, and the decimal printing used when
integer indices are written back as JS array indices. -/

/-- Numeric value of a decimal digit string (the behaviour of `Number(key)`
on keys matching `/^(0|[1-9]\d*)$/`). -/
def parseDec (cs : List Char) : Nat :=
  cs.foldl (fun n c => n * 10 + (c.toNat - 48)) 0

/-- `Number(key)` for a key string. -/
def keyNum (k : String) : Nat :=
  parseDec k.data

/-- Little-endian decimal digits, with explicit fuel (the fuel only needs to
be at least the argument for the result to be fuel-independent). -/
def digitsRevFuel : Nat → Nat → List Char
  | 0, _ => []
  | fuel + 1, n =>
    if n = 0 then [] else Char.ofNat (48 + n % 10) :: digitsRevFuel fuel (n / 10)

/-- Little-endian decimal digits of a positive number. -/
def digitsRev (n : Nat) : List Char :=
  digitsRevFuel n n

/-- Decimal representation of a natural number (what JS produces for an
array index converted to a string key). -/
def printNat (n : Nat) : String :=
  if n = 0 then "0" else String.mk (digitsRev n).reverse

/-- The integer-literal key pattern `/^(0|[1-9]\d*)$/` from
`_checkAndConvertToArray` (code points 48–57 are the digits `0`–`9`). -/
def integerKey (k : String) : Bool :=
  match k.data with
  | [] => false
  | c :: cs =>
    (c = '0' && cs.isEmpty) ||
      ((49 ≤ c.toNat && c.toNat ≤ 57) && cs.all (fun d => 48 ≤ d.toNat && d.toNat ≤ 57))

/-! ### Delta applier

Modelled from the spec: `applyChange` lives in the repository's `utils`
module (not under the verified sources).  Per the spec: a non-mapping delta
(primitive or explicit null tombstone) replaces wholesale; a mapping delta
recurses per key against the corresponding base child (absent base children,
or a non-mapping base, behave as absent — encoded here by recursing against
`TVal.null`, which has no entries); base keys not mentioned by the delta are
carried through unchanged. -/

/-- Base entries in base key order, each overridden by the merged result when
the delta mentions its key. -/
def mergeBase (bes merged : List (String × TVal)) : List (String × TVal) :=
  bes.map (fun kv => (kv.1, (lookupKey merged kv.1).getD kv.2))

mutual

/-- Modelled from the spec: `applyChange(base, delta)` — the derived
post-change tree. -/
def applyChange : TVal → TVal → TVal
  | base, .obj des =>
    let bes := base.objEntries
    .obj (mergeBase bes (applyChangeEntries bes des) ++
      (applyChangeEntries bes des).filter (fun kv => (lookupKey bes kv.1).isNone))
  | _, d => d

/-- Recursive results for every delta key, in delta key order: key `k` maps
to `applyChange (base child at k, or absent) (delta child at k)`. -/
def applyChangeEntries (bes : List (String × TVal)) :
    List (String × TVal) → List (String × TVal)
  | [] => []
  | (k, dv) :: rest =>
    (k, applyChange ((lookupKey bes k).getD .null) dv) :: applyChangeEntries bes rest

end

/-! ### Array inference normalizer (`DeltaSnapshot._checkAndConvertToArray`) -/

/-- The single `_.forEach` loop's key bookkeeping: fold over the original
keys tracking `(allIntegerKeys, maxKey)`; `maxKey` starts at `0` and is only
updated while every key seen so far matches the integer pattern
(`allIntegerKeys` short-circuits to false and stays false). -/
def scanKeys (ks : List String) : Bool × Nat :=
  ks.foldl
    (fun st k =>
      if st.1 && integerKey k then (true, max st.2 (keyNum k)) else (false, st.2))
    (true, 0)

/-- JS array indexed assignment `array[i] = v`: extend with holes up to
index `i` if needed, then set position `i`. -/
def arraySet (a : List (Option NVal)) (i : Nat) (v : NVal) : List (Option NVal) :=
  let padded := if a.length ≤ i then a ++ List.replicate (i + 1 - a.length) none else a
  padded.set i (some v)

/-- The `_.forOwn(obj, (val, key) => { array[key] = val; })` loop building
the inferred array from the normalized entries. -/
def buildArray (es : List (String × NVal)) : List (Option NVal) :=
  es.foldl (fun a kv => arraySet a (keyNum kv.1) kv.2) []

mutual

/-- `DeltaSnapshot._checkAndConvertToArray`: recursively normalize children,
then convert the mapping to an array when every original key matches the
integer pattern and `maxKey < 2 * numKeys`. -/
def checkAndConvertToArray : TVal → NVal
  | .null => .null
  | .bool b => .bool b
  | .num n => .num n
  | .str s => .str s
  | .obj es =>
    let obj := convertEntries es
    let numKeys := es.length
    let scan := scanKeys (es.map Prod.fst)
    if scan.1 && decide (scan.2 < 2 * numKeys) then .arr (buildArray obj)
    else .obj obj

/-- Children of a mapping node, each normalized, in key order (the body of
the `_.forEach` loop's `obj[key] = this._checkAndConvertToArray(childNode)`). -/
def convertEntries : List (String × TVal) → List (String × NVal)
  | [] => []
  | (k, v) :: rest => (k, checkAndConvertToArray v) :: convertEntries rest

end

/-! ### The resource-string regex

The constructor runs the unanchored JS regex
`projects/([^/]+)/instances/([^/]+)/refs(/.+)?` over `event.resource` via
`String.prototype.match`: the engine looks for the leftmost start position
at which the pattern matches.  `[^/]+` is a maximal nonempty run of
non-slash characters (no backtracking can help, since the following literal
is a slash), and the trailing greedy optional group `(/.+)?` takes a slash
plus a maximal nonempty run of non-line-terminator characters when
possible. -/

/-- Strip an exact literal character sequence from the front. -/
def dropLit : List Char → List Char → Option (List Char)
  | [], cs => some cs
  | _ :: _, [] => none
  | l :: ls, c :: cs => if c = l then dropLit ls cs else none

/-- `[^/]+`: a maximal nonempty run of non-slash characters, with the rest. -/
def takeSeg (cs : List Char) : Option (List Char × List Char) :=
  let seg := cs.takeWhile (fun c => c ≠ '/')
  if seg.isEmpty then none else some (seg, cs.drop seg.length)

/-- JS line terminators, which `.` does not match. -/
def lineTerm (c : Char) : Bool :=
  c = '\n' || c = '\r' || c.toNat = 0x2028 || c.toNat = 0x2029

/-- Match the database resource regex at the current position, returning the
captured groups `(project, instance, ref)`. -/
def matchAt (cs : List Char) : Option (String × String × Option String) :=
  match dropLit "projects/".data cs with
  | none => none
  | some cs1 =>
    match takeSeg cs1 with
    | none => none
    | some (proj, cs2) =>
      match dropLit "/instances/".data cs2 with
      | none => none
      | some cs3 =>
        match takeSeg cs3 with
        | none => none
        | some (inst, cs4) =>
          match dropLit "/refs".data cs4 with
          | none => none
          | some cs5 =>
            let ref : Option (List Char) :=
              match cs5 with
              | '/' :: rest =>
                let body := rest.takeWhile (fun c => !lineTerm c)
                if body.isEmpty then none else some ('/' :: body)
              | _ => none
            some (String.mk proj, String.mk inst, ref.map String.mk)

/-- `String.prototype.match` with the (unanchored) resource regex: try every
start position left to right. -/
def findMatch : List Char → Option (String × String × Option String)
  | [] => matchAt []
  | c :: rest =>
    match matchAt (c :: rest) with
    | some r => some r
    | none => findMatch rest

/-- The spec's grammar for a resource string, as written:
`projects/_/instances/<id>/refs(/<path>)?`, matched against the WHOLE
string, with `<id>` a nonempty slash-free segment and `<path>` nonempty. -/
def resourceGrammar (s : String) : Bool :=
  match dropLit "projects/_/instances/".data s.data with
  | none => false
  | some cs =>
    match takeSeg cs with
    | none => false
    | some (_, cs) =>
      match dropLit "/refs".data cs with
      | none => false
      | some rest =>
        match rest with
        | [] => true
        | '/' :: body => !body.isEmpty
        | _ :: _ => false

/-! ### The snapshot navigator -/

/-- Modelled from the spec: the auth context (`apps.AuthMode`) is an opaque
value carried through unchanged; the `apps` module is not under the verified
sources. -/
structure AuthMode where
  tag : Nat
  deriving DecidableEq

/-- The inbound raw event envelope:
`{ resource, auth, data: { data, delta } }`. -/
structure RawEvent where
  resource : String
  auth : AuthMode
  dataData : TVal
  dataDelta : TVal

/-- The `DeltaSnapshot` field state.  `childPath = ""` stands for the
`undefined` `_childPath` of a freshly constructed snapshot, and
`isPrevious = false` for the `undefined` `_isPrevious` (both falsy). -/
structure DeltaSnapshot where
  path : String
  auth : AuthMode
  data : TVal
  delta : TVal
  newData : TVal
  childPath : String
  isPrevious : Bool

/-- The field assignments of the constructor body on a successful match:
path, auth, data, delta and the derived tree `applyChange(data, delta)`;
`_childPath` and `_isPrevious` are left undefined (falsy). -/
def mkSnap (e : RawEvent) (ref : Option String) : DeltaSnapshot :=
  { path := normalizePath (ref.getD ""), auth := e.auth, data := e.dataData,
    delta := e.dataDelta, newData := applyChange e.dataData e.dataDelta,
    childPath := "", isPrevious := false }

/-- The `DeltaSnapshot(apps, event)` constructor for a non-null raw event:
match the resource regex (throwing on failure), check the project segment is
the sentinel underscore (throwing otherwise), then record the fields. -/
def DeltaSnapshot.ofEvent (e : RawEvent) : Except String DeltaSnapshot :=
  match findMatch e.resource.data with
  | none => .error "Unexpected resource string for Firebase Realtime Database event"
  | some (project, _inst, ref) =>
    if project = "_" then .ok (mkSnap e ref)
    else
      .error "Expected project to be the sentinel in a Firebase Realtime Database event"

/-- `DeltaSnapshot._dup(previous, childPath?)`: a fresh snapshot sharing
path, auth, data, delta, childPath and newData; `_isPrevious` is set exactly
when `previous` is truthy, and a truthy `childPath` is joined onto the
copied offset. -/
def DeltaSnapshot.dup (s : DeltaSnapshot) (previous : Bool) (childPath : Option String) :
    DeltaSnapshot :=
  let d : DeltaSnapshot :=
    { path := s.path, auth := s.auth, data := s.data, delta := s.delta,
      childPath := s.childPath, newData := s.newData, isPrevious := previous }
  match childPath with
  | some cp => if cp = "" then d else { d with childPath := joinPath d.childPath cp }
  | none => d

/-- `child(childPath?)`: returns `this` for a falsy path, else a duplicate
with the same view flag and the path joined on. -/
def DeltaSnapshot.child (s : DeltaSnapshot) (childPath : String) : DeltaSnapshot :=
  if childPath = "" then s else s.dup s.isPrevious (some childPath)

/-- The `previous` getter. -/
def DeltaSnapshot.previous (s : DeltaSnapshot) : DeltaSnapshot :=
  if s.isPrevious then s else s.dup true none

/-- The `current` getter. -/
def DeltaSnapshot.current (s : DeltaSnapshot) : DeltaSnapshot :=
  if s.isPrevious then s.dup false none else s

/-- `val()`: resolve the offset inside `_data` (previous view) or `_newData`
(current view) — `_.get` with default `null` when the offset is nonempty —
and normalize (`_.cloneDeep` is the identity on pure values). -/
def DeltaSnapshot.val (s : DeltaSnapshot) : NVal :=
  let parts := pathParts s.childPath
  let source := if s.isPrevious then s.data else s.newData
  let node := if parts.length ≠ 0 then (getPath source parts).getD TVal.null else source
  checkAndConvertToArray node

/-- `_.isNull`. -/
def NVal.isNull : NVal → Bool
  | .null => true
  | _ => false

/-- `_.isPlainObject`: true exactly for plain keyed mappings (arrays and
primitives are not plain objects). -/
def NVal.isPlainObject : NVal → Bool
  | .obj _ => true
  | _ => false

/-- `_.keys` / `Object.keys`: key strings of a mapping, index strings of an
array, `[]` otherwise. -/
def NVal.keys : NVal → List String
  | .obj es => es.map Prod.fst
  | .arr a => (List.range a.length).map printNat
  | _ => []

/-- `exists()`: `!_.isNull(this.val())`. -/
def DeltaSnapshot.existsVal (s : DeltaSnapshot) : Bool :=
  !(s.val.isNull)

/-- `changed()`: `valAt(this._delta, this._childPath) !== undefined`. -/
def DeltaSnapshot.changed (s : DeltaSnapshot) : Bool :=
  (valAt s.delta s.childPath).isSome

/-- `forEach(action)`: when `val()` is a plain object, invoke the callback
once per key with `child(key)`; the booleans the callback returns are
collected here (the JS code discards them) and the method returns `false`. -/
def DeltaSnapshot.forEach (s : DeltaSnapshot) (action : DeltaSnapshot → Bool) :
    List Bool × Bool :=
  let v := s.val
  (if v.isPlainObject then v.keys.map (fun k => action (s.child k)) else [], false)

/-- `hasChild(childPath)`: `child(childPath).exists()`. -/
def DeltaSnapshot.hasChild (s : DeltaSnapshot) (childPath : String) : Bool :=
  (s.child childPath).existsVal

/-- `hasChildren()`: `_.isPlainObject(val) && _.keys(val).length > 0`. -/
def DeltaSnapshot.hasChildren (s : DeltaSnapshot) : Bool :=
  let v := s.val
  v.isPlainObject && decide (v.keys.length > 0)

/-- `numChildren()`: `_.isPlainObject(val) ? Object.keys(val).length : 0`. -/
def DeltaSnapshot.numChildren (s : DeltaSnapshot) : Nat :=
  let v := s.val
  if v.isPlainObject then v.keys.length else 0

/-- `_fullPath()`: string concatenation of `_path` and `_childPath` (each
`''` when undefined), with `''` replaced by the root path. -/
def DeltaSnapshot.fullPath (s : DeltaSnapshot) : String :=
  let out := s.path ++ s.childPath
  if out = "" then "/" else out

/-- The `key` getter: the last segment of `pathParts(_fullPath())`, with a
falsy or empty last segment mapped to `null`. -/
def DeltaSnapshot.key (s : DeltaSnapshot) : Option String :=
  match (pathParts s.fullPath).getLast? with
  | none => none
  | some last => if last = "" then none else some last

/-- A navigation step: the three operations that produce a new view from an
existing snapshot. -/
inductive NavOp where
  | child : String → NavOp
  | previous : NavOp
  | current : NavOp

/-- Run a sequence of navigation steps from a snapshot. -/
def applyOps (s : DeltaSnapshot) : List NavOp → DeltaSnapshot
  | [] => s
  | op :: rest =>
    applyOps
      (match op with
       | .child p => s.child p
       | .previous => s.previous
       | .current => s.current)
      rest

/-! ### Auxiliary definitions used by the verification statements -/

/-- Example base tree `{a: 1}`. -/
def exBase : TVal := TVal.obj [("a", TVal.num 1)]

/-- Example delta tree `{a: 2}`. -/
def exDelta : TVal := TVal.obj [("a", TVal.num 2)]

/-- Example envelope with a grammar-conforming resource string. -/
def exEvent : RawEvent :=
  { resource := "projects/_/instances/i/refs", auth := { tag := 0 },
    dataData := exBase, dataDelta := exDelta }

/-- The snapshot the constructor yields on `exEvent`. -/
def exSnap : DeltaSnapshot :=
  { path := "/", auth := { tag := 0 }, data := exBase, delta := exDelta,
    newData := TVal.obj [("a", TVal.num 2)], childPath := "", isPrevious := false }

/-- A snapshot whose value is a two-key mapping. -/
def snapObj : DeltaSnapshot :=
  { path := "/", auth := { tag := 0 }, data := TVal.null, delta := TVal.null,
    newData := TVal.obj [("a", TVal.num 1), ("b", TVal.num 2)], childPath := "",
    isPrevious := false }

/-- A snapshot whose value is an inferred (integer-keyed) array. -/
def snapArr : DeltaSnapshot :=
  { path := "/", auth := { tag := 0 }, data := TVal.null, delta := TVal.null,
    newData := TVal.obj [("0", TVal.str "x")], childPath := "", isPrevious := false }

/-- A snapshot whose value is a scalar. -/
def snapNum : DeltaSnapshot :=
  { path := "/", auth := { tag := 0 }, data := TVal.null, delta := TVal.null,
    newData := TVal.num 7, childPath := "", isPrevious := false }

/-- A snapshot holding an empty mapping at offset `e` of the derived tree. -/
def snapEmptyObj : DeltaSnapshot :=
  { path := "/", auth := { tag := 0 }, data := TVal.null, delta := TVal.null,
    newData := TVal.obj [("e", TVal.obj [])], childPath := "/e", isPrevious := false }

/-- An envelope whose resource string merely CONTAINS a conforming substring
(junk prefix `x`). -/
def junkEvent : RawEvent :=
  { resource := "xprojects/_/instances/i/refs", auth := { tag := 0 },
    dataData := TVal.null, dataDelta := TVal.null }

/-- The snapshot the constructor nevertheless produces on `junkEvent`. -/
def junkSnap : DeltaSnapshot :=
  { path := "/", auth := { tag := 0 }, data := TVal.null, delta := TVal.null,
    newData := TVal.null, childPath := "", isPrevious := false }

/-- Every character is a decimal digit (code points 48–57). -/
def allDigits (cs : List Char) : Prop :=
  ∀ d ∈ cs, 48 ≤ d.toNat ∧ d.toNat ≤ 57

/-- The first character is a nonzero digit (code points 49–57). -/
def headNZ : List Char → Prop
  | [] => False
  | c :: _ => 49 ≤ c.toNat ∧ c.toNat ≤ 57

/-- The LAST entry whose key has numeric value `j` (JS array assignment
`array[key] = val` lets later assignments win). -/
def lookupLastNum (es : List (String × NVal)) (j : Nat) : Option NVal :=
  match es with
  | [] => none
  | (k, v) :: rest =>
    match lookupLastNum rest j with
    | some v' => some v'
    | none => if keyNum k = j then some v else none

/-- Maximum numeric value over a key list, starting from `0` (what the
`maxKey` accumulator computes when every key matches the integer pattern). -/
def maxNumKey (ks : List String) : Nat :=
  ks.foldl (fun m k => max m (keyNum k)) 0

/-- Read an array position, collapsing both "out of range" and "hole" to
`none`. -/
def aGet (a : List (Option NVal)) (j : Nat) : Option NVal :=
  a[j]?.join

/-! ### Association-list lemmas -/

theorem lookupKey_append {α : Type} (l₁ l₂ : List (String × α)) (k : String) :
    lookupKey (l₁ ++ l₂) k =
      match lookupKey l₁ k with
      | some v => some v
      | none => lookupKey l₂ k := by
  induction l₁ with
  | nil => simp [lookupKey]
  | cons kv rest ih =>
    obtain ⟨k', v⟩ := kv
    by_cases h : k' = k <;> simp [lookupKey, h, ih]

theorem lookupKey_filter {α : Type} (es : List (String × α)) (q : String → Bool)
    (k : String) (hq : q k = true) :
    lookupKey (es.filter (fun kv => q kv.1)) k = lookupKey es k := by
  induction es with
  | nil => simp [lookupKey]
  | cons kv rest ih =>
    obtain ⟨k', v⟩ := kv
    by_cases h : k' = k
    · subst h; simp [lookupKey, hq]
    · by_cases hq' : q k' = true <;> simp [lookupKey, h, hq', ih]

theorem lookupKey_mem {α : Type} {es : List (String × α)} {k : String} {v : α}
    (h : lookupKey es k = some v) : (k, v) ∈ es := by
  induction es with
  | nil => simp [lookupKey] at h
  | cons kv rest ih =>
    obtain ⟨k', v'⟩ := kv
    by_cases hk : k' = k
    · subst hk
      simp [lookupKey] at h
      simp [h]
    · simp [lookupKey, hk] at h
      exact List.mem_cons_of_mem _ (ih h)

theorem lookupKey_eq_none {α : Type} (es : List (String × α)) (k : String)
    (h : k ∉ es.map Prod.fst) : lookupKey es k = none := by
  induction es with
  | nil => rfl
  | cons kv rest ih =>
    obtain ⟨k', v'⟩ := kv
    rw [List.map_cons, List.mem_cons] at h
    push_neg at h
    have hk : ¬k' = k := fun hh => h.1 hh.symm
    simp [lookupKey, hk, ih h.2]

theorem lookupKey_applyChangeEntries (bes des : List (String × TVal)) (k : String) :
    lookupKey (applyChangeEntries bes des) k =
      (lookupKey des k).map (fun dv => applyChange ((lookupKey bes k).getD .null) dv) := by
  induction des with
  | nil => rfl
  | cons kv rest ih =>
    obtain ⟨k', dv⟩ := kv
    by_cases h : k' = k <;> simp [applyChangeEntries, lookupKey, h, ih]

theorem map_fst_applyChangeEntries (bes des : List (String × TVal)) :
    (applyChangeEntries bes des).map Prod.fst = des.map Prod.fst := by
  induction des with
  | nil => rfl
  | cons kv rest ih => obtain ⟨k', dv⟩ := kv; simp [applyChangeEntries, ih]

theorem lookupKey_mergeBase (bes merged : List (String × TVal)) (k : String) :
    lookupKey (mergeBase bes merged) k =
      (lookupKey bes k).map (fun bv => (lookupKey merged k).getD bv) := by
  induction bes with
  | nil => rfl
  | cons kv rest ih =>
    obtain ⟨k', bv⟩ := kv
    by_cases h : k' = k
    · simp [mergeBase, lookupKey, h]
    · simp only [mergeBase, List.map_cons, lookupKey, h, if_false]
      simpa [mergeBase] using ih

theorem convertEntries_eq_map (es : List (String × TVal)) :
    convertEntries es = es.map (fun kv => (kv.1, checkAndConvertToArray kv.2)) := by
  induction es with
  | nil => rfl
  | cons kv rest ih => obtain ⟨k, v⟩ := kv; simp [convertEntries, ih]

theorem map_fst_convertEntries (es : List (String × TVal)) :
    (convertEntries es).map Prod.fst = es.map Prod.fst := by
  rw [convertEntries_eq_map, List.map_map]; rfl

theorem lookupKey_convertEntries (es : List (String × TVal)) (k : String) :
    lookupKey (convertEntries es) k = (lookupKey es k).map checkAndConvertToArray := by
  induction es with
  | nil => rfl
  | cons kv rest ih =>
    obtain ⟨k', v⟩ := kv
    by_cases h : k' = k <;> simp [convertEntries, lookupKey, h, ih]

/-! ### Path lemmas -/

theorem splitSlash_ne_nil (cs : List Char) : splitSlash cs ≠ [] := by
  induction cs with
  | nil => simp [splitSlash]
  | cons c rest ih =>
    by_cases h : c = '/'
    · simp [splitSlash, h]
    · simp only [splitSlash, if_neg h]
      cases hs : splitSlash rest <;> simp

theorem no_slash_of_mem_splitSlash {cs : List Char} {seg : List Char}
    (h : seg ∈ splitSlash cs) : '/' ∉ seg := by
  induction cs generalizing seg with
  | nil => simp [splitSlash] at h; simp [h]
  | cons c rest ih =>
    by_cases hc : c = '/'
    · simp [splitSlash, hc] at h
      rcases h with h | h
      · simp [h]
      · exact ih h
    · simp only [splitSlash, if_neg hc] at h
      cases hs : splitSlash rest with
      | nil => exact absurd hs (splitSlash_ne_nil rest)
      | cons s ss =>
        rw [hs] at h
        rcases List.mem_cons.mp h with h | h
        · subst h
          intro hmem
          rcases List.mem_cons.mp hmem with h | h
          · exact hc h.symm
          · exact ih (hs ▸ List.mem_cons_self s ss) h
        · exact ih (hs ▸ List.mem_cons_of_mem s h)

theorem splitSlash_append (x y : List Char) :
    splitSlash (x ++ '/' :: y) = splitSlash x ++ splitSlash y := by
  induction x with
  | nil => simp [splitSlash]
  | cons c rest ih =>
    by_cases hc : c = '/'
    · simp [splitSlash, hc, ih]
    · rw [List.cons_append]
      simp only [splitSlash, if_neg hc]
      rw [ih]
      cases hs : splitSlash rest with
      | nil => exact absurd hs (splitSlash_ne_nil rest)
      | cons s ss => simp

theorem no_slash_splitSlash {cs : List Char} (h : '/' ∉ cs) : splitSlash cs = [cs] := by
  induction cs with
  | nil => rfl
  | cons c rest ih =>
    rw [List.mem_cons] at h
    push_neg at h
    have hc : ¬c = '/' := fun hcc => h.1 hcc.symm
    simp [splitSlash, hc, ih h.2]

theorem getPath_nil (v : TVal) : getPath v [] = some v := by
  cases v <;> rfl

theorem pathParts_append_slash (a b : String) :
    pathParts (a ++ "/" ++ b) = pathParts a ++ pathParts b := by
  unfold pathParts
  have hdata : (a ++ "/" ++ b).data = a.data ++ '/' :: b.data := by
    rw [String.data_append, String.data_append]
    simp
  rw [hdata, splitSlash_append, List.filter_append, List.map_append]

theorem pathParts_slash_append (b : String) : pathParts ("/" ++ b) = pathParts b := by
  unfold pathParts
  have hdata : ("/" ++ b).data = '/' :: b.data := by
    rw [String.data_append]; rfl
  rw [hdata]
  simp [splitSlash]

theorem pathParts_mem_spec {p : String} {s : String} (h : s ∈ pathParts p) :
    s.data ≠ [] ∧ '/' ∉ s.data := by
  unfold pathParts at h
  rcases List.mem_map.mp h with ⟨seg, hseg, rfl⟩
  rcases List.mem_filter.mp hseg with ⟨hmem, hne⟩
  refine ⟨by simpa using hne, no_slash_of_mem_splitSlash hmem⟩

theorem pathParts_joinSegs (segs : List String)
    (h : ∀ s ∈ segs, s.data ≠ [] ∧ '/' ∉ s.data) :
    pathParts (joinSegs segs) = segs := by
  induction segs with
  | nil => rfl
  | cons s rest ih =>
    cases rest with
    | nil =>
      have hs := h s (by simp)
      show pathParts s = [s]
      unfold pathParts
      rw [no_slash_splitSlash hs.2]
      simp [hs.1]
    | cons s' rest' =>
      show pathParts (s ++ "/" ++ joinSegs (s' :: rest')) = _
      rw [pathParts_append_slash, ih (fun t ht => h t (List.mem_cons_of_mem _ ht))]
      have hs := h s (by simp)
      have : pathParts s = [s] := by
        unfold pathParts
        rw [no_slash_splitSlash hs.2]
        simp [hs.1]
      rw [this]; rfl

theorem pathParts_normalizePath (p : String) :
    pathParts (normalizePath p) = pathParts p := by
  unfold normalizePath
  rw [pathParts_slash_append, pathParts_joinSegs _ (fun s hs => pathParts_mem_spec hs)]

theorem pathParts_joinPath (a b : String) :
    pathParts (joinPath a b) = pathParts a ++ pathParts b := by
  unfold joinPath
  rw [pathParts_normalizePath, pathParts_append_slash]

theorem pathParts_append_normalizePath (a q : String) :
    pathParts (a ++ normalizePath q) = pathParts a ++ pathParts q := by
  unfold normalizePath
  rw [← String.append_assoc, pathParts_append_slash,
    pathParts_joinSegs _ (fun s hs => pathParts_mem_spec hs)]

/-! ### Decimal numeral lemmas -/

theorem toNat_ofNat_small (m : Nat) (h : m < 55296) : (Char.ofNat m).toNat = m := by
  unfold Char.ofNat
  rw [dif_pos (Or.inl h)]
  simp [Char.ofNatAux, Char.toNat, UInt32.toNat, UInt32.ofNatCore]

theorem digitsRevFuel_congr (f1 : Nat) : ∀ (f2 n : Nat), n ≤ f1 → n ≤ f2 →
    digitsRevFuel f1 n = digitsRevFuel f2 n := by
  induction f1 with
  | zero =>
    intro f2 n h1 h2
    have hn : n = 0 := by omega
    subst hn
    cases f2 <;> simp [digitsRevFuel]
  | succ f ih =>
    intro f2 n h1 h2
    by_cases hn : n = 0
    · subst hn
      cases f2 <;> simp [digitsRevFuel]
    · obtain ⟨f2', rfl⟩ : ∃ f2', f2 = f2' + 1 := ⟨f2 - 1, by omega⟩
      simp only [digitsRevFuel, if_neg hn]
      have hdiv : n / 10 ≤ f := by omega
      have hdiv2 : n / 10 ≤ f2' := by omega
      rw [ih f2' (n / 10) hdiv hdiv2]

theorem digitsRev_zero : digitsRev 0 = [] := rfl

theorem digitsRev_pos (n : Nat) (h : n ≠ 0) :
    digitsRev n = Char.ofNat (48 + n % 10) :: digitsRev (n / 10) := by
  unfold digitsRev
  obtain ⟨m, rfl⟩ : ∃ m, n = m + 1 := ⟨n - 1, by omega⟩
  simp only [digitsRevFuel, if_neg h]
  rw [digitsRevFuel_congr m ((m + 1) / 10) ((m + 1) / 10) (by omega) (Nat.le_refl _)]

theorem parseDec_append (ds : List Char) (c : Char) :
    parseDec (ds ++ [c]) = parseDec ds * 10 + (c.toNat - 48) := by
  unfold parseDec
  rw [List.foldl_append]
  rfl

theorem parseDec_pos {cs : List Char} (h : headNZ cs) : 1 ≤ parseDec cs := by
  match cs with
  | [] => exact absurd h (by simp [headNZ])
  | c :: rest =>
    obtain ⟨h49, _⟩ := h
    have hstep : ∀ (l : List Char) (acc : Nat), 1 ≤ acc →
        1 ≤ l.foldl (fun n d => n * 10 + (d.toNat - 48)) acc := by
      intro l
      induction l with
      | nil => intro acc h; exact h
      | cons d rest ih =>
        intro acc hacc
        simp only [List.foldl_cons]
        exact ih _ (by nlinarith)
    show 1 ≤ List.foldl _ (0 * 10 + (c.toNat - 48)) rest
    exact hstep rest _ (by omega)

theorem digitsRev_parseDec (cs : List Char) (hd : allDigits cs) (hz : headNZ cs) :
    digitsRev (parseDec cs) = cs.reverse := by
  induction cs using List.reverseRecOn with
  | nil => exact absurd hz (by simp [headNZ])
  | append_singleton xs c ih =>
    have hc : 48 ≤ c.toNat ∧ c.toNat ≤ 57 := hd c (by simp)
    rw [parseDec_append]
    cases xs with
    | nil =>
      have hcz : 49 ≤ c.toNat ∧ c.toNat ≤ 57 := by
        simpa [headNZ] using hz
      have h1 : 0 * 10 + (c.toNat - 48) = c.toNat - 48 := by omega
      rw [show parseDec [] = 0 from rfl, h1,
        digitsRev_pos _ (by omega), Nat.mod_eq_of_lt (by omega),
        Nat.div_eq_of_lt (by omega), digitsRev_zero,
        show 48 + (c.toNat - 48) = c.toNat by omega, Char.ofNat_toNat]
      simp
    | cons x xs' =>
      have hz' : headNZ (x :: xs') := by
        simpa [headNZ] using hz
      have hd' : allDigits (x :: xs') :=
        fun d hdm => hd d (List.mem_append_left _ hdm)
      have hp : 1 ≤ parseDec (x :: xs') := parseDec_pos hz'
      set p := parseDec (x :: xs') with hpdef
      rw [digitsRev_pos _ (by omega)]
      have hmod : (p * 10 + (c.toNat - 48)) % 10 = c.toNat - 48 := by omega
      have hdiv : (p * 10 + (c.toNat - 48)) / 10 = p := by omega
      rw [hmod, hdiv, show 48 + (c.toNat - 48) = c.toNat by omega, Char.ofNat_toNat,
        ih hd' hz']
      simp

theorem parseDec_digitsRev_reverse (n : Nat) : parseDec (digitsRev n).reverse = n := by
  induction n using Nat.strong_induction_on with
  | _ n ih =>
    by_cases h : n = 0
    · subst h; rw [digitsRev_zero]; rfl
    · rw [digitsRev_pos _ h]
      simp only [List.reverse_cons]
      rw [parseDec_append, ih (n / 10) (Nat.div_lt_self (Nat.pos_of_ne_zero h) (by omega)),
        toNat_ofNat_small _ (by omega)]
      omega

theorem integerKey_cases {k : String} (h : integerKey k = true) :
    k.data = ['0'] ∨ (allDigits k.data ∧ headNZ k.data) := by
  unfold integerKey at h
  match hk : k.data with
  | [] => rw [hk] at h; exact absurd h (by simp)
  | c :: cs =>
    rw [hk] at h
    simp only [Bool.or_eq_true, Bool.and_eq_true, decide_eq_true_eq, List.all_eq_true] at h
    rcases h with ⟨hc, hcs⟩ | ⟨hc, hcs⟩
    · left
      rw [hc, List.isEmpty_iff.mp hcs]
    · right
      refine ⟨fun d hd => ?_, by simp [headNZ]; omega⟩
      rcases List.mem_cons.mp hd with rfl | hd
      · omega
      · have := hcs d hd; omega

theorem printNat_keyNum {k : String} (h : integerKey k = true) :
    printNat (keyNum k) = k := by
  rcases integerKey_cases h with h0 | ⟨hd, hz⟩
  · have hk : k = String.mk ['0'] := by
      cases k; simp at h0; rw [h0]
    subst hk
    rfl
  · unfold printNat keyNum
    have hpos : 1 ≤ parseDec k.data := parseDec_pos hz
    rw [if_neg (by omega), digitsRev_parseDec k.data hd hz]
    cases k
    simp

theorem keyNum_printNat (j : Nat) : keyNum (printNat j) = j := by
  unfold printNat keyNum
  by_cases h : j = 0
  · subst h; rfl
  · rw [if_neg h]
    exact parseDec_digitsRev_reverse j

/-! ### Key-scan and array-building lemmas -/

theorem scanAux_fst (ks : List String) : ∀ (b : Bool) (m : Nat),
    (ks.foldl
      (fun st k =>
        if st.1 && integerKey k then (true, max st.2 (keyNum k)) else (false, st.2))
      (b, m)).1 = (b && ks.all integerKey) := by
  induction ks with
  | nil => intro b m; simp
  | cons k rest ih =>
    intro b m
    rw [List.foldl_cons, List.all_cons]
    show (List.foldl _
      (if (b && integerKey k) = true then (true, max m (keyNum k)) else (false, m)) rest).1 = _
    cases hbk : b && integerKey k with
    | true =>
      rw [if_pos rfl, ih]
      rw [Bool.and_eq_true] at hbk
      rw [hbk.1, hbk.2, Bool.true_and, Bool.true_and]
    | false =>
      rw [if_neg Bool.false_ne_true, ih]
      rw [← Bool.and_assoc, hbk, Bool.false_and]

theorem scanKeys_fst (ks : List String) : (scanKeys ks).1 = ks.all integerKey := by
  unfold scanKeys
  rw [scanAux_fst]
  exact Bool.true_and _

theorem scanAux_snd (ks : List String) (hall : ∀ k ∈ ks, integerKey k = true) :
    ∀ m : Nat,
    (ks.foldl
      (fun st k =>
        if st.1 && integerKey k then (true, max st.2 (keyNum k)) else (false, st.2))
      (true, m)).2 = ks.foldl (fun m k => max m (keyNum k)) m := by
  induction ks with
  | nil => intro m; rfl
  | cons k rest ih =>
    intro m
    simp only [List.foldl_cons, hall k (by simp), Bool.and_self, if_pos]
    exact ih (fun k hk => hall k (List.mem_cons_of_mem _ hk)) _

theorem scanKeys_snd (ks : List String) (hall : ∀ k ∈ ks, integerKey k = true) :
    (scanKeys ks).2 = maxNumKey ks :=
  scanAux_snd ks hall 0

theorem foldl_max_init_le (ks : List String) : ∀ m : Nat,
    m ≤ ks.foldl (fun m k => max m (keyNum k)) m := by
  induction ks with
  | nil => intro m; exact Nat.le_refl m
  | cons k rest ih =>
    intro m
    exact Nat.le_trans (le_max_left m (keyNum k)) (ih _)

theorem le_maxNumKey {ks : List String} {k : String} (h : k ∈ ks) :
    keyNum k ≤ maxNumKey ks := by
  unfold maxNumKey
  generalize 0 = m
  induction ks generalizing m with
  | nil => simp at h
  | cons k' rest ih =>
    rcases List.mem_cons.mp h with rfl | h
    · exact Nat.le_trans (le_max_right m (keyNum k)) (foldl_max_init_le rest _)
    · exact ih h _

theorem length_arraySet (a : List (Option NVal)) (i : Nat) (v : NVal) :
    (arraySet a i v).length = max a.length (i + 1) := by
  unfold arraySet
  by_cases h : a.length ≤ i
  · rw [if_pos h, List.length_set, List.length_append, List.length_replicate,
      Nat.max_eq_right (by omega)]
    omega
  · rw [if_neg h, List.length_set, Nat.max_eq_left (by omega)]

theorem aGet_arraySet (a : List (Option NVal)) (i : Nat) (v : NVal) (j : Nat) :
    aGet (arraySet a i v) j = if j = i then some v else aGet a j := by
  unfold arraySet aGet
  by_cases hpad : a.length ≤ i
  · rw [if_pos hpad, List.getElem?_set]
    by_cases hij : i = j
    · subst hij
      rw [if_pos rfl, if_pos (by rw [List.length_append, List.length_replicate]; omega)]
      simp
    · rw [if_neg hij, if_neg (fun h => hij h.symm), List.getElem?_append,
        List.getElem?_replicate]
      by_cases hj : j < a.length
      · rw [if_pos hj]
      · rw [if_neg hj, List.getElem?_eq_none (by omega)]
        by_cases hjn : j - a.length < i + 1 - a.length
        · rw [if_pos hjn]
          rfl
        · rw [if_neg hjn]
  · rw [if_neg hpad, List.getElem?_set]
    by_cases hij : i = j
    · subst hij
      rw [if_pos rfl, if_pos (by omega)]
      simp
    · rw [if_neg hij, if_neg (fun h => hij h.symm)]

theorem aGet_foldl_arraySet (es : List (String × NVal)) :
    ∀ (a : List (Option NVal)) (j : Nat),
    aGet (es.foldl (fun a kv => arraySet a (keyNum kv.1) kv.2) a) j =
      match lookupLastNum es j with
      | some v => some v
      | none => aGet a j := by
  induction es with
  | nil => intro a j; rfl
  | cons kv rest ih =>
    intro a j
    obtain ⟨k, v⟩ := kv
    simp only [List.foldl_cons]
    rw [ih]
    show _ =
      (match
        (match lookupLastNum rest j with
         | some v' => some v'
         | none => if keyNum k = j then some v else none) with
       | some v' => some v'
       | none => aGet a j)
    cases lookupLastNum rest j with
    | some v' => rfl
    | none =>
      rw [aGet_arraySet]
      by_cases hj : keyNum k = j
      · rw [if_pos hj, if_pos hj.symm]
      · rw [if_neg hj, if_neg (fun h => hj h.symm)]

theorem length_foldl_arraySet (es : List (String × NVal)) :
    ∀ a : List (Option NVal),
    (es.foldl (fun a kv => arraySet a (keyNum kv.1) kv.2) a).length =
      es.foldl (fun L kv => max L (keyNum kv.1 + 1)) a.length := by
  induction es with
  | nil => intro a; rfl
  | cons kv rest ih =>
    intro a
    simp only [List.foldl_cons]
    rw [ih, length_arraySet]

theorem foldl_max_succ (xs : List (String × NVal)) : ∀ L : Nat,
    xs.foldl (fun acc kv => max acc (keyNum kv.1 + 1)) (L + 1) =
      (xs.foldl (fun acc kv => max acc (keyNum kv.1)) L) + 1 := by
  induction xs with
  | nil => intro L; rfl
  | cons kv rest ih =>
    intro L
    simp only [List.foldl_cons]
    rw [show max (L + 1) (keyNum kv.1 + 1) = max L (keyNum kv.1) + 1 from
      Nat.succ_max_succ L (keyNum kv.1), ih]

theorem length_buildArray (es : List (String × NVal)) (h : es ≠ []) :
    (buildArray es).length = maxNumKey (es.map Prod.fst) + 1 := by
  unfold buildArray
  rw [length_foldl_arraySet]
  unfold maxNumKey
  rw [List.foldl_map]
  cases es with
  | nil => exact absurd rfl h
  | cons kv rest =>
    simp only [List.foldl_cons, List.length_nil, Nat.max_eq_right (Nat.zero_le _),
      Nat.zero_max]
    exact foldl_max_succ rest (keyNum kv.1)

theorem lookupLastNum_eq_lookupKey (es : List (String × NVal)) (j : Nat)
    (hint : ∀ k ∈ es.map Prod.fst, integerKey k = true)
    (hnd : (es.map Prod.fst).Nodup) :
    lookupLastNum es j = lookupKey es (printNat j) := by
  induction es with
  | nil => rfl
  | cons kv rest ih =>
    obtain ⟨k, v⟩ := kv
    have hk : integerKey k = true := hint k (by simp)
    have hrest : ∀ k' ∈ rest.map Prod.fst, integerKey k' = true :=
      fun k' hk' => hint k' (by simp [hk'])
    have hnd' : (rest.map Prod.fst).Nodup := (List.nodup_cons.mp (by simpa using hnd)).2
    have hkn : k ∉ rest.map Prod.fst := (List.nodup_cons.mp (by simpa using hnd)).1
    by_cases hj : keyNum k = j
    · have hkp : k = printNat j := by rw [← hj, printNat_keyNum hk]
      have hnone : lookupKey rest (printNat j) = none := by
        rw [← hkp]; exact lookupKey_eq_none rest k hkn
      show (match lookupLastNum rest j with
            | some v' => some v'
            | none => if keyNum k = j then some v else none) = _
      rw [ih hrest hnd', hnone, if_pos hj]
      show _ = (if k = printNat j then some v else lookupKey rest (printNat j))
      rw [if_pos hkp]
    · have hkp : ¬k = printNat j := by
        intro hkp
        exact hj (by rw [hkp, keyNum_printNat])
      show (match lookupLastNum rest j with
            | some v' => some v'
            | none => if keyNum k = j then some v else none) = _
      rw [ih hrest hnd', if_neg hj]
      show _ = (if k = printNat j then some v else lookupKey rest (printNat j))
      rw [if_neg hkp]
      cases lookupKey rest (printNat j) <;> rfl

/-! ### Absence is preserved by the delta applier -/

theorem sizeOf_lookup_lt {des : List (String × TVal)} {k : String} {dv : TVal}
    (h : lookupKey des k = some dv) : sizeOf dv < sizeOf (TVal.obj des) := by
  have hmem := lookupKey_mem h
  have h1 : sizeOf (k, dv) < sizeOf des := List.sizeOf_lt_of_mem hmem
  have h2 : sizeOf (k, dv) = 1 + sizeOf k + sizeOf dv := rfl
  have h3 : sizeOf (TVal.obj des) = 1 + sizeOf des := by simp
  omega

theorem getPath_of_entry {base : TVal} {k : String} {rest : List String} {bv : TVal}
    (hb : lookupKey base.objEntries k = some bv)
    (h : getPath base (k :: rest) = none) : getPath bv rest = none := by
  cases base with
  | obj bes =>
    simp only [getPath] at h
    rw [show TVal.objEntries (.obj bes) = bes from rfl] at hb
    rw [hb] at h
    exact h
  | null => exact absurd hb (by simp [TVal.objEntries, lookupKey])
  | bool b => exact absurd hb (by simp [TVal.objEntries, lookupKey])
  | num n => exact absurd hb (by simp [TVal.objEntries, lookupKey])
  | str s => exact absurd hb (by simp [TVal.objEntries, lookupKey])

theorem getPath_applyChange_none_aux (n : Nat) : ∀ (delta : TVal), sizeOf delta < n →
    ∀ (base : TVal) (ps : List String), getPath base ps = none → getPath delta ps = none →
    getPath (applyChange base delta) ps = none := by
  induction n with
  | zero =>
    intro delta hle
    exact absurd hle (Nat.not_lt_zero _)
  | succ n ih =>
    intro delta hle base ps h1 h2
    cases delta with
    | null => simp only [applyChange]; exact h2
    | bool b => simp only [applyChange]; exact h2
    | num m => simp only [applyChange]; exact h2
    | str s => simp only [applyChange]; exact h2
    | obj des =>
      cases ps with
      | nil => exact absurd h2 (by simp [getPath])
      | cons k rest =>
        simp only [applyChange, getPath]
        rw [lookupKey_append, lookupKey_mergeBase, lookupKey_applyChangeEntries]
        cases hb : lookupKey base.objEntries k with
        | some bv =>
          have hbrest : getPath bv rest = none := getPath_of_entry hb h1
          cases hd : lookupKey des k with
          | some dv =>
            have hdrest : getPath dv rest = none := by
              simp only [getPath] at h2
              rw [hd] at h2
              exact h2
            have hsz : sizeOf dv < n := by
              have := sizeOf_lookup_lt hd
              omega
            simp only [Option.map_some', Option.getD_some]
            exact ih dv hsz bv rest hbrest hdrest
          | none =>
            simp only [Option.map_none', Option.getD_none, Option.getD_some]
            exact hbrest
        | none =>
          simp only [Option.map_none']
          rw [lookupKey_filter _ (fun kk => (lookupKey base.objEntries kk).isNone) k
            (by simp [hb]), lookupKey_applyChangeEntries]
          cases hd : lookupKey des k with
          | some dv =>
            have hdrest : getPath dv rest = none := by
              simp only [getPath] at h2
              rw [hd] at h2
              exact h2
            have hrest_ne : rest ≠ [] := by
              intro hre
              rw [hre] at hdrest
              exact absurd hdrest (by simp [getPath])
            have hnull : getPath TVal.null rest = none := by
              cases rest with
              | nil => exact absurd rfl hrest_ne
              | cons r rs => rfl
            have hsz : sizeOf dv < n := by
              have := sizeOf_lookup_lt hd
              omega
            simp only [Option.map_some', hb, Option.getD_none]
            exact ih dv hsz TVal.null rest hnull hdrest
          | none => rfl

theorem getPath_applyChange_none {base delta : TVal} {ps : List String}
    (h1 : getPath base ps = none) (h2 : getPath delta ps = none) :
    getPath (applyChange base delta) ps = none :=
  getPath_applyChange_none_aux (sizeOf delta + 1) delta (Nat.lt_succ_self _) base ps h1 h2

/-! ### Navigation lemmas -/

theorem previous_eq (s : DeltaSnapshot) : s.previous = { s with isPrevious := true } := by
  cases s with
  | mk path auth data delta newData childPath isPrevious =>
    cases isPrevious <;> rfl

theorem current_eq (s : DeltaSnapshot) : s.current = { s with isPrevious := false } := by
  cases s with
  | mk path auth data delta newData childPath isPrevious =>
    cases isPrevious <;> rfl

theorem child_empty (s : DeltaSnapshot) : s.child "" = s := by
  unfold DeltaSnapshot.child
  rw [if_pos rfl]

theorem child_eq (s : DeltaSnapshot) (p : String) (h : ¬p = "") :
    s.child p = { s with childPath := joinPath s.childPath p } := by
  simp [DeltaSnapshot.child, DeltaSnapshot.dup, h]

theorem child_fields (s : DeltaSnapshot) (p : String) :
    (s.child p).path = s.path ∧ (s.child p).auth = s.auth ∧ (s.child p).data = s.data ∧
    (s.child p).delta = s.delta ∧ (s.child p).newData = s.newData ∧
    (s.child p).isPrevious = s.isPrevious := by
  by_cases h : p = ""
  · rw [h, child_empty]
    exact ⟨rfl, rfl, rfl, rfl, rfl, rfl⟩
  · rw [child_eq s p h]
    exact ⟨rfl, rfl, rfl, rfl, rfl, rfl⟩

theorem previous_fields (s : DeltaSnapshot) :
    s.previous.path = s.path ∧ s.previous.auth = s.auth ∧ s.previous.data = s.data ∧
    s.previous.delta = s.delta ∧ s.previous.newData = s.newData := by
  rw [previous_eq]
  exact ⟨rfl, rfl, rfl, rfl, rfl⟩

theorem current_fields (s : DeltaSnapshot) :
    s.current.path = s.path ∧ s.current.auth = s.auth ∧ s.current.data = s.data ∧
    s.current.delta = s.delta ∧ s.current.newData = s.newData := by
  rw [current_eq]
  exact ⟨rfl, rfl, rfl, rfl, rfl⟩

theorem applyOps_fields (ops : List NavOp) : ∀ s : DeltaSnapshot,
    (applyOps s ops).path = s.path ∧ (applyOps s ops).auth = s.auth ∧
    (applyOps s ops).data = s.data ∧ (applyOps s ops).delta = s.delta ∧
    (applyOps s ops).newData = s.newData := by
  induction ops with
  | nil => intro s; exact ⟨rfl, rfl, rfl, rfl, rfl⟩
  | cons op rest ih =>
    intro s
    cases op with
    | child p =>
      have h := ih (s.child p)
      have hc := child_fields s p
      exact ⟨h.1.trans hc.1, h.2.1.trans hc.2.1, h.2.2.1.trans hc.2.2.1,
        h.2.2.2.1.trans hc.2.2.2.1, h.2.2.2.2.trans hc.2.2.2.2.1⟩
    | previous =>
      have h := ih s.previous
      have hp := previous_fields s
      exact ⟨h.1.trans hp.1, h.2.1.trans hp.2.1, h.2.2.1.trans hp.2.2.1,
        h.2.2.2.1.trans hp.2.2.2.1, h.2.2.2.2.trans hp.2.2.2.2⟩
    | current =>
      have h := ih s.current
      have hp := current_fields s
      exact ⟨h.1.trans hp.1, h.2.1.trans hp.2.1, h.2.2.1.trans hp.2.2.1,
        h.2.2.2.1.trans hp.2.2.2.1, h.2.2.2.2.trans hp.2.2.2.2⟩

/-- Constructor field characterization: a successful construction records
path, auth, data, delta and the freshly applied derived tree. -/
theorem ofEvent_ok {e : RawEvent} {s : DeltaSnapshot}
    (h : DeltaSnapshot.ofEvent e = .ok s) :
    s.data = e.dataData ∧ s.delta = e.dataDelta ∧
    s.newData = applyChange e.dataData e.dataDelta ∧
    s.childPath = "" ∧ s.isPrevious = false ∧ s.auth = e.auth := by
  unfold DeltaSnapshot.ofEvent at h
  split at h
  · exact absurd h (by simp)
  · split at h
    · cases h
      exact ⟨rfl, rfl, rfl, rfl, rfl, rfl⟩
    · exact absurd h (by simp)

/-! ### The claims -/

/-- C2: every snapshot reachable from an envelope-constructed snapshot by
child / previous / current navigation keeps the same base, delta and derived
trees; the derived tree equals `applyChange(base, delta)` exactly as
computed once at construction and is never recomputed or replaced. -/
theorem C2_derived_tree_frozen (e : RawEvent) (s : DeltaSnapshot) (ops : List NavOp)
    (h : DeltaSnapshot.ofEvent e = .ok s) :
    (applyOps s ops).newData = applyChange e.dataData e.dataDelta ∧
    (applyOps s ops).data = e.dataData ∧
    (applyOps s ops).delta = e.dataDelta ∧
    (applyOps s ops).newData = applyChange (applyOps s ops).data (applyOps s ops).delta := by
  obtain ⟨hd, hdel, hnew, _, _, _⟩ := ofEvent_ok h
  obtain ⟨_, _, h3, h4, h5⟩ := applyOps_fields ops s
  refine ⟨h5.trans hnew, h3.trans hd, h4.trans hdel, ?_⟩
  rw [h5, hnew, h3, hd, h4, hdel]

/-- C2 witness at a concrete envelope and navigation sequence. -/
theorem C2_derived_tree_frozen_witness :
    (applyOps exSnap [NavOp.child "a", NavOp.previous, NavOp.current]).newData =
      applyChange exBase exDelta :=
  (C2_derived_tree_frozen exEvent exSnap
    [NavOp.child "a", NavOp.previous, NavOp.current] rfl).1

/-- C5: child, previous and current never mutate the receiver (snapshots are
immutable values here); the snapshot they return shares the receiver's base
tree, delta tree, derived tree, auth context and absolute base path, and
differs at most in the relative offset (child joins the path onto it) and
the pre/post flag (previous/current set it); toggling previous/current keeps
the relative offset. -/
theorem C5_navigation_frame (s : DeltaSnapshot) (p : String) :
    ((s.child p).path = s.path ∧ (s.child p).auth = s.auth ∧
      (s.child p).data = s.data ∧ (s.child p).delta = s.delta ∧
      (s.child p).newData = s.newData ∧ (s.child p).isPrevious = s.isPrevious ∧
      (s.child p).childPath =
        (if p = "" then s.childPath else joinPath s.childPath p)) ∧
    (s.previous.path = s.path ∧ s.previous.auth = s.auth ∧
      s.previous.data = s.data ∧ s.previous.delta = s.delta ∧
      s.previous.newData = s.newData ∧ s.previous.childPath = s.childPath ∧
      s.previous.isPrevious = true) ∧
    (s.current.path = s.path ∧ s.current.auth = s.auth ∧
      s.current.data = s.data ∧ s.current.delta = s.delta ∧
      s.current.newData = s.newData ∧ s.current.childPath = s.childPath ∧
      s.current.isPrevious = false) := by
  refine ⟨?_, ?_, ?_⟩
  · by_cases h : p = ""
    · rw [h, child_empty, if_pos rfl]
      exact ⟨rfl, rfl, rfl, rfl, rfl, rfl, rfl⟩
    · rw [child_eq s p h, if_neg h]
      exact ⟨rfl, rfl, rfl, rfl, rfl, rfl, rfl⟩
  · rw [previous_eq]
    exact ⟨rfl, rfl, rfl, rfl, rfl, rfl, rfl⟩
  · rw [current_eq]
    exact ⟨rfl, rfl, rfl, rfl, rfl, rfl, rfl⟩

/-- C3: `changed()` is true iff the delta tree has a defined (non-absent)
value at the snapshot's current relative offset path, and the result is
independent of the pre/post view flag; in particular for a snapshot built
from base `{a:1}` and delta `{a:2}`, both views report `changed` at child
`a` and not at the untouched sibling `b`. -/
theorem C3_changed_view_independent :
    (∀ s : DeltaSnapshot, s.previous.changed = s.changed ∧ s.current.changed = s.changed) ∧
    (∀ s : DeltaSnapshot,
      s.changed = true ↔ getPath s.delta (pathParts s.childPath) ≠ none) ∧
    (∃ s : DeltaSnapshot,
      DeltaSnapshot.ofEvent exEvent = .ok s ∧
      (s.child "a").previous.changed = true ∧ (s.child "a").current.changed = true ∧
      (s.child "b").previous.changed = false ∧ (s.child "b").current.changed = false) := by
  refine ⟨fun s => ⟨?_, ?_⟩, fun s => ?_, ?_⟩
  · rw [previous_eq]
    exact rfl
  · rw [current_eq]
    exact rfl
  · unfold DeltaSnapshot.changed valAt
    exact Option.isSome_iff_ne_none
  · exact ⟨exSnap, rfl, rfl, rfl, rfl, rfl⟩

/-- C7: `hasChildren()` is true iff `val()` is a plain keyed mapping with at
least one key, and `numChildren()` is the mapping's key count (0 for any
non-mapping value); an array — even a non-empty inferred one — reports no
children. -/
theorem C7_children_counting :
    (∀ s : DeltaSnapshot, s.hasChildren = true ↔ ∃ es, s.val = NVal.obj es ∧ es ≠ []) ∧
    (∀ (s : DeltaSnapshot) (es : List (String × NVal)), s.val = NVal.obj es →
      s.numChildren = es.length) ∧
    (∀ s : DeltaSnapshot, (∀ es, s.val ≠ NVal.obj es) → s.numChildren = 0) ∧
    (∀ (s : DeltaSnapshot) (a : List (Option NVal)), s.val = NVal.arr a →
      s.hasChildren = false ∧ s.numChildren = 0) := by
  refine ⟨fun s => ?_, fun s es hv => ?_, fun s hv => ?_, fun s a hv => ?_⟩
  · unfold DeltaSnapshot.hasChildren
    cases hv : s.val with
    | obj es =>
      simp [NVal.isPlainObject, NVal.keys]
      exact List.length_pos
    | null => simp [NVal.isPlainObject]
    | bool b => simp [NVal.isPlainObject]
    | num n => simp [NVal.isPlainObject]
    | str t => simp [NVal.isPlainObject]
    | arr a => simp [NVal.isPlainObject]
  · unfold DeltaSnapshot.numChildren
    rw [hv]
    simp [NVal.isPlainObject, NVal.keys]
  · unfold DeltaSnapshot.numChildren
    cases hv2 : s.val with
    | obj es => exact absurd hv2 (hv es)
    | null => rfl
    | bool b => rfl
    | num n => rfl
    | str t => rfl
    | arr a => rfl
  · constructor
    · unfold DeltaSnapshot.hasChildren
      rw [hv]
      rfl
    · unfold DeltaSnapshot.numChildren
      rw [hv]
      rfl

/-- C7 witness: a mapping-valued snapshot has one child; an array-valued
snapshot (inferred from integer keys) reports no children; a scalar reports
zero children. -/
theorem C7_children_counting_witness :
    snapObj.numChildren = 2 ∧ snapArr.hasChildren = false ∧
    snapArr.numChildren = 0 ∧ snapNum.numChildren = 0 := by
  refine ⟨(C7_children_counting.2.1 snapObj
    [("a", NVal.num 1), ("b", NVal.num 2)] rfl).trans rfl, ?_, ?_, ?_⟩
  · exact (C7_children_counting.2.2.2 snapArr [some (NVal.str "x")] rfl).1
  · exact (C7_children_counting.2.2.2 snapArr [some (NVal.str "x")] rfl).2
  · exact C7_children_counting.2.2.1 snapNum (fun es h => by
      rw [show snapNum.val = NVal.num 7 from rfl] at h
      exact absurd h (by simp))

/-- C8: when `val()` is a plain keyed mapping, `forEach` invokes the visitor
once per key in the mapping's iteration order, passing `child(key)`; when
`val()` is not a plain mapping, the visitor is never invoked; the invocation
count never depends on the booleans the visitor returns, and `forEach`
itself returns false. -/
theorem C8_forEach_visits (s : DeltaSnapshot) (f : DeltaSnapshot → Bool) :
    (∀ es, s.val = NVal.obj es →
      (s.forEach f).1 = es.map (fun kv => f (s.child kv.1))) ∧
    (s.val.isPlainObject = false → (s.forEach f).1 = []) ∧
    (s.forEach f).2 = false ∧
    (∀ es, s.val = NVal.obj es → ∀ g : DeltaSnapshot → Bool,
      (s.forEach f).1.length = es.length ∧ (s.forEach g).1.length = es.length) := by
  have hmain : ∀ (h : DeltaSnapshot → Bool) (es : List (String × NVal)),
      s.val = NVal.obj es → (s.forEach h).1 = es.map (fun kv => h (s.child kv.1)) := by
    intro h es hv
    unfold DeltaSnapshot.forEach
    rw [hv]
    simp [NVal.isPlainObject, NVal.keys]
  refine ⟨hmain f, fun hv => ?_, rfl, fun es hv g => ?_⟩
  · show (if s.val.isPlainObject = true then s.val.keys.map (fun k => f (s.child k))
      else [], false).1 = []
    rw [hv, if_neg Bool.false_ne_true]
  · rw [hmain f es hv, hmain g es hv, List.length_map, List.length_map]
    exact ⟨rfl, rfl⟩

/-- C8 witness: a two-key mapping produces exactly the two child visits in
key order regardless of the visitor. -/
theorem C8_forEach_visits_witness :
    (snapObj.forEach (fun _ => false)).1 = [false, false] := by
  have h := (C8_forEach_visits snapObj (fun _ => false)).1
    [("a", NVal.num 1), ("b", NVal.num 2)] rfl
  rw [h]
  rfl

/-- C10: a snapshot whose selected source tree holds an empty keyed mapping
at the offset path yields an empty mapping from `val()` (not an array, not
null), because the density condition `maxKey < 2 * numKeys` fails at zero
keys (`maxKey` starts at 0); hence `exists()` is true while `hasChildren()`
is false and `numChildren()` is 0. -/
theorem C10_empty_mapping (s : DeltaSnapshot)
    (h : getPath (if s.isPrevious then s.data else s.newData) (pathParts s.childPath) =
      some (TVal.obj [])) :
    s.val = NVal.obj [] ∧ s.existsVal = true ∧ s.hasChildren = false ∧
    s.numChildren = 0 ∧ ¬((scanKeys ([] : List String)).2 < 2 * 0) ∧
    checkAndConvertToArray (TVal.obj []) = NVal.obj [] := by
  have hval : s.val = NVal.obj [] := by
    show checkAndConvertToArray
      (if (pathParts s.childPath).length ≠ 0 then
        (getPath (if s.isPrevious then s.data else s.newData)
          (pathParts s.childPath)).getD TVal.null
      else (if s.isPrevious then s.data else s.newData)) = NVal.obj []
    cases hp : pathParts s.childPath with
    | nil =>
      rw [hp] at h
      have h' : some (if s.isPrevious then s.data else s.newData) = some (TVal.obj []) :=
        (getPath_nil _).symm.trans h
      have hs := Option.some.inj h'
      rw [if_neg (by simp), hs]
      rfl
    | cons q qs =>
      rw [hp] at h
      rw [if_pos (by simp), h]
      rfl
  refine ⟨hval, ?_, ?_, ?_, by omega, rfl⟩
  · unfold DeltaSnapshot.existsVal
    rw [hval]
    rfl
  · unfold DeltaSnapshot.hasChildren
    rw [hval]
    rfl
  · unfold DeltaSnapshot.numChildren
    rw [hval]
    rfl

/-- C10 witness: an empty mapping in the derived tree at offset `e`. -/
theorem C10_empty_mapping_witness :
    snapEmptyObj.val = NVal.obj [] ∧ snapEmptyObj.existsVal = true ∧
    snapEmptyObj.hasChildren = false ∧ snapEmptyObj.numChildren = 0 ∧
    ¬((scanKeys ([] : List String)).2 < 2 * 0) ∧
    checkAndConvertToArray (TVal.obj []) = NVal.obj [] :=
  C10_empty_mapping snapEmptyObj rfl

theorem buildArray_eq_range_map (ces : List (String × NVal))
    (hint : ∀ k ∈ ces.map Prod.fst, integerKey k = true)
    (hnd : (ces.map Prod.fst).Nodup) (hne : ces ≠ []) :
    buildArray ces = (List.range (maxNumKey (ces.map Prod.fst) + 1)).map
      (fun i => lookupKey ces (printNat i)) := by
  have hlen := length_buildArray ces hne
  apply List.ext_getElem?
  intro j
  by_cases hj : j < maxNumKey (ces.map Prod.fst) + 1
  · rw [List.getElem?_map, List.getElem?_range hj, Option.map_some']
    have hjl : j < (buildArray ces).length := by omega
    have haGet : aGet (buildArray ces) j = lookupKey ces (printNat j) := by
      have h1 := aGet_foldl_arraySet ces [] j
      rw [lookupLastNum_eq_lookupKey ces j hint hnd] at h1
      unfold buildArray
      cases h2 : lookupKey ces (printNat j) with
      | some v => rw [h2] at h1; exact h1
      | none => rw [h2] at h1; exact h1
    unfold aGet at haGet
    rw [List.getElem?_eq_getElem hjl] at haGet
    simp only [Option.join, Option.some_bind, id_eq] at haGet
    rw [List.getElem?_eq_getElem hjl, haGet]
  · have hr : (List.range (maxNumKey (ces.map Prod.fst) + 1))[j]? = none :=
      List.getElem?_eq_none (by rw [List.length_range]; omega)
    have hl : (buildArray ces)[j]? = none := List.getElem?_eq_none (by omega)
    rw [List.getElem?_map, hr, Option.map_none', hl]

/-- C1: the array-inference normalizer maps null to null, keeps non-mapping
scalars unchanged, and recursively normalizes a mapping's children; it then
converts the mapping to an ordered sequence exactly when every original key
matches the integer-literal pattern and the maximum numeric key is below
twice the key count — sequence index `i` holding the normalized value
previously keyed by the decimal string for `i`, with missing indices below
the maximum left as holes — and otherwise returns the mapping of normalized
children in original key order.  The three boundary examples of the spec are
included. -/
theorem C1_array_inference (es : List (String × TVal)) :
    (checkAndConvertToArray TVal.null = NVal.null) ∧
    (∀ b, checkAndConvertToArray (TVal.bool b) = NVal.bool b) ∧
    (∀ n, checkAndConvertToArray (TVal.num n) = NVal.num n) ∧
    (∀ t, checkAndConvertToArray (TVal.str t) = NVal.str t) ∧
    (convertEntries es = es.map (fun kv => (kv.1, checkAndConvertToArray kv.2))) ∧
    (((es.map Prod.fst).all integerKey = true ∧
        maxNumKey (es.map Prod.fst) < 2 * es.length ∧ (es.map Prod.fst).Nodup) →
      checkAndConvertToArray (TVal.obj es) =
        NVal.arr ((List.range (maxNumKey (es.map Prod.fst) + 1)).map
          (fun i => lookupKey (convertEntries es) (printNat i)))) ∧
    (¬((es.map Prod.fst).all integerKey = true ∧
        maxNumKey (es.map Prod.fst) < 2 * es.length) →
      checkAndConvertToArray (TVal.obj es) = NVal.obj (convertEntries es)) ∧
    (checkAndConvertToArray
        (TVal.obj [("0", TVal.str "a"), ("1", TVal.str "b"), ("2", TVal.str "c")]) =
      NVal.arr [some (NVal.str "a"), some (NVal.str "b"), some (NVal.str "c")]) ∧
    (checkAndConvertToArray (TVal.obj [("0", TVal.str "a"), ("1000", TVal.str "b")]) =
      NVal.obj [("0", NVal.str "a"), ("1000", NVal.str "b")]) ∧
    (checkAndConvertToArray (TVal.obj [("0", TVal.str "a"), ("x", TVal.str "b")]) =
      NVal.obj [("0", NVal.str "a"), ("x", NVal.str "b")]) := by
  have hunfold : checkAndConvertToArray (TVal.obj es) =
      if (scanKeys (es.map Prod.fst)).1 &&
          decide ((scanKeys (es.map Prod.fst)).2 < 2 * es.length) then
        NVal.arr (buildArray (convertEntries es))
      else NVal.obj (convertEntries es) := rfl
  refine ⟨rfl, fun b => rfl, fun n => rfl, fun t => rfl, convertEntries_eq_map es,
    fun hc => ?_, fun hc => ?_, rfl, rfl, rfl⟩
  · obtain ⟨hall, hmax, hnd⟩ := hc
    have hallmem : ∀ k ∈ es.map Prod.fst, integerKey k = true := by
      intro k hk
      exact List.all_eq_true.mp hall k hk
    have hne : es ≠ [] := by
      intro he
      rw [he] at hmax
      simp [maxNumKey] at hmax
    have hcemap := map_fst_convertEntries es
    have hcond : ((scanKeys (es.map Prod.fst)).1 &&
        decide ((scanKeys (es.map Prod.fst)).2 < 2 * es.length)) = true := by
      rw [scanKeys_fst, hall, scanKeys_snd _ hallmem, Bool.true_and]
      exact decide_eq_true hmax
    rw [hunfold, if_pos hcond,
      buildArray_eq_range_map (convertEntries es) (by rw [hcemap]; exact hallmem)
        (by rw [hcemap]; exact hnd) (by
          intro hce
          rw [convertEntries_eq_map] at hce
          exact hne (List.map_eq_nil_iff.mp hce)),
      hcemap]
  · have hcond : ((scanKeys (es.map Prod.fst)).1 &&
        decide ((scanKeys (es.map Prod.fst)).2 < 2 * es.length)) = false := by
      cases hall : (es.map Prod.fst).all integerKey with
      | false => rw [scanKeys_fst, hall, Bool.false_and]
      | true =>
        have hallmem : ∀ k ∈ es.map Prod.fst, integerKey k = true :=
          fun k hk => List.all_eq_true.mp hall k hk
        have hmax : ¬maxNumKey (es.map Prod.fst) < 2 * es.length := by
          intro hmax
          exact hc ⟨hall, hmax⟩
        rw [scanKeys_fst, hall, scanKeys_snd _ hallmem, Bool.true_and]
        exact decide_eq_false hmax
    rw [hunfold, if_neg (by rw [hcond]; exact Bool.false_ne_true)]

/-- C1 witness at a sparse-but-dense-enough mapping: keys `0` and `2` with
two entries produce a three-slot array with a hole at index 1. -/
theorem C1_array_inference_witness :
    checkAndConvertToArray (TVal.obj [("0", TVal.str "a"), ("2", TVal.str "c")]) =
      NVal.arr [some (NVal.str "a"), none, some (NVal.str "c")] := by
  have h := (C1_array_inference [("0", TVal.str "a"), ("2", TVal.str "c")]).2.2.2.2.2.1
    (by refine ⟨by decide, by decide, by decide⟩)
  rw [h]
  rfl

/-- C6: absent paths are never errors — if a relative path exists in neither
the base tree nor the delta tree (hence, by absence preservation, not in the
derived tree either), navigating there yields a snapshot whose `val()` is
null and whose `exists()` is false, in either view; and for every snapshot,
`exists()` is true iff `val()` is not null.  (`child` is a total function of
the embedding: navigation itself never fails.) -/
theorem C6_absent_path_reads (s : DeltaSnapshot) (p : String)
    (hinv : s.newData = applyChange s.data s.delta)
    (hbase : getPath s.data (pathParts s.childPath ++ pathParts p) = none)
    (hdelta : getPath s.delta (pathParts s.childPath ++ pathParts p) = none) :
    ((s.child p).val = NVal.null ∧ (s.child p).existsVal = false) ∧
    (∀ t : DeltaSnapshot, t.existsVal = true ↔ t.val ≠ NVal.null) := by
  have hiff : ∀ t : DeltaSnapshot, t.existsVal = true ↔ t.val ≠ NVal.null := by
    intro t
    unfold DeltaSnapshot.existsVal
    cases hv : t.val <;> simp [NVal.isNull]
  have hparts : pathParts (s.child p).childPath = pathParts s.childPath ++ pathParts p := by
    by_cases hp : p = ""
    · rw [hp, child_empty, show pathParts ("" : String) = [] from rfl, List.append_nil]
    · rw [child_eq s p hp]
      exact pathParts_joinPath _ _
  have hsrc : getPath
      (if (s.child p).isPrevious then (s.child p).data else (s.child p).newData)
      (pathParts (s.child p).childPath) = none := by
    obtain ⟨_, _, hd, _, hn, hip⟩ := child_fields s p
    rw [hparts, hip, hd, hn]
    by_cases hprev : s.isPrevious = true
    · rw [if_pos hprev]
      exact hbase
    · rw [if_neg hprev, hinv]
      exact getPath_applyChange_none hbase hdelta
  have hval : (s.child p).val = NVal.null := by
    show checkAndConvertToArray
      (if (pathParts (s.child p).childPath).length ≠ 0 then
        (getPath
          (if (s.child p).isPrevious then (s.child p).data else (s.child p).newData)
          (pathParts (s.child p).childPath)).getD TVal.null
      else (if (s.child p).isPrevious then (s.child p).data else (s.child p).newData)) =
      NVal.null
    cases hq : pathParts (s.child p).childPath with
    | nil =>
      rw [hq] at hsrc
      exact absurd ((getPath_nil _).symm.trans hsrc) (by simp)
    | cons a as =>
      rw [hq] at hsrc
      rw [if_pos (by simp), hsrc]
      rfl
  refine ⟨⟨hval, ?_⟩, hiff⟩
  unfold DeltaSnapshot.existsVal
  rw [hval]
  rfl

/-- C6 witness: a deep path absent from both trees of the example snapshot
reads as null / not existing. -/
theorem C6_absent_path_reads_witness :
    (((exSnap.child "nonexistent/deep/path").val = NVal.null ∧
      (exSnap.child "nonexistent/deep/path").existsVal = false) ∧
    (∀ t : DeltaSnapshot, t.existsVal = true ↔ t.val ≠ NVal.null)) :=
  C6_absent_path_reads exSnap "nonexistent/deep/path" rfl rfl rfl

/-- C9: `key` is the last segment of the absolute path (base path plus
relative offset), null at the root; consequently, with the modelled path
primitives satisfying their round-trip property, `child(P).key` equals the
last segment of any segment-nonempty relative path `P`, and `child('')`
keeps the receiver's key. -/
theorem C9_key_round_trip :
    (∀ s : DeltaSnapshot, s.key = (pathParts s.fullPath).getLast?) ∧
    (∀ (s : DeltaSnapshot) (P : String), pathParts P ≠ [] →
      (s.child P).key = (pathParts P).getLast?) ∧
    (∀ s : DeltaSnapshot, (s.child "").key = s.key) := by
  have hkey : ∀ s : DeltaSnapshot, s.key = (pathParts s.fullPath).getLast? := by
    intro s
    unfold DeltaSnapshot.key
    cases hL : (pathParts s.fullPath).getLast? with
    | none => rfl
    | some l =>
      have hmem : l ∈ pathParts s.fullPath := by
        obtain ⟨h9, heq⟩ := List.mem_getLast?_eq_getLast (Option.mem_def.mpr hL)
        rw [heq]
        exact List.getLast_mem h9
      have hne : l.data ≠ [] := (pathParts_mem_spec hmem).1
      have : ¬l = "" := by
        intro hl
        rw [hl] at hne
        exact hne rfl
      show (if l = "" then none else some l) = some l
      rw [if_neg this]
  refine ⟨hkey, fun s P hP => ?_, fun s => by rw [child_empty]⟩
  have hPne : ¬P = "" := by
    intro hP0
    rw [hP0] at hP
    exact hP rfl
  rw [hkey]
  have hno : ¬(s.path ++ joinPath s.childPath P) = "" := by
    intro hout
    have hdata : (s.path ++ joinPath s.childPath P).data = [] := by
      rw [hout]
    rw [String.data_append] at hdata
    have hj : (joinPath s.childPath P).data = [] := (List.append_eq_nil.mp hdata).2
    unfold joinPath normalizePath at hj
    rw [String.data_append] at hj
    simp at hj
  have hfull : (s.child P).fullPath = s.path ++ joinPath s.childPath P := by
    rw [child_eq s P hPne]
    show (if s.path ++ joinPath s.childPath P = "" then "/"
      else s.path ++ joinPath s.childPath P) = s.path ++ joinPath s.childPath P
    rw [if_neg hno]
  rw [hfull]
  unfold joinPath
  rw [pathParts_append_normalizePath, pathParts_append_slash]
  have hBC : pathParts s.childPath ++ pathParts P ≠ [] := by
    intro h0
    exact hP (List.append_eq_nil.mp h0).2
  rw [List.getLast?_append_of_ne_nil _ hBC, List.getLast?_append_of_ne_nil _ hP]

/-! ### Resource-string matching lemmas -/

theorem dropLit_some : ∀ (l cs rest : List Char), dropLit l cs = some rest →
    cs = l ++ rest := by
  intro l
  induction l with
  | nil =>
    intro cs rest h
    simp [dropLit] at h
    rw [h]
    rfl
  | cons c ls ih =>
    intro cs rest h
    cases cs with
    | nil => exact absurd h (by simp [dropLit])
    | cons c' cs' =>
      unfold dropLit at h
      by_cases hc : c' = c
      · rw [if_pos hc] at h
        rw [hc, ih cs' rest h]
        rfl
      · rw [if_neg hc] at h
        exact absurd h (by simp)

theorem dropLit_append_self : ∀ (l cs : List Char), dropLit l (l ++ cs) = some cs := by
  intro l
  induction l with
  | nil => intro cs; rfl
  | cons c ls ih => intro cs; simp [dropLit, ih]

theorem findMatch_of_matchAt {cs : List Char} {r : String × String × Option String}
    (h : matchAt cs = some r) : findMatch cs = some r := by
  cases cs with
  | nil => rw [show findMatch [] = matchAt [] from rfl, h]
  | cons c rest =>
    show (match matchAt (c :: rest) with
      | some r => some r
      | none => findMatch rest) = some r
    rw [h]

theorem matchAt_of_grammar {s : String} (h : resourceGrammar s = true) :
    ∃ inst ref, matchAt s.data = some ("_", inst, ref) := by
  unfold resourceGrammar at h
  split at h
  · exact absurd h Bool.false_ne_true
  · rename_i cs hd
    split at h
    · exact absurd h Bool.false_ne_true
    · rename_i pr idSeg cs2 hseg
      split at h
      · exact absurd h Bool.false_ne_true
      · rename_i rest hre
        have hs : s.data = "projects/".data ++ ('_' :: '/' :: ("instances/".data ++ cs)) := by
          rw [dropLit_some _ _ _ hd]
          rfl
        refine ⟨String.mk idSeg,
          (match rest with
            | '/' :: rbody =>
              if (rbody.takeWhile (fun c => !lineTerm c)).isEmpty then none
              else some ('/' :: rbody.takeWhile (fun c => !lineTerm c))
            | _ => none).map String.mk, ?_⟩
        rw [hs]
        show (match takeSeg cs with
          | none => none
          | some (inst, cs4) =>
            match dropLit "/refs".data cs4 with
            | none => none
            | some cs5 =>
              some (("_" : String), String.mk inst,
                (match cs5 with
                 | '/' :: rbody =>
                   if (rbody.takeWhile (fun c => !lineTerm c)).isEmpty then none
                   else some ('/' :: rbody.takeWhile (fun c => !lineTerm c))
                 | _ => none).map String.mk)) = _
        rw [hseg]
        show (match dropLit "/refs".data cs2 with
          | none => none
          | some cs5 =>
            some (("_" : String), String.mk idSeg,
              (match cs5 with
               | '/' :: rbody =>
                 if (rbody.takeWhile (fun c => !lineTerm c)).isEmpty then none
                 else some ('/' :: rbody.takeWhile (fun c => !lineTerm c))
               | _ => none).map String.mk)) = _
        rw [hre]

/-- C4 counterexample: the resource string `xprojects/_/instances/i/refs`
does not conform to the grammar `projects/_/instances/<id>/refs(/<path>)?`,
yet the constructor accepts it, because the JS regex is matched unanchored
(as a substring search).  This refutes "any other resource string is
rejected". -/
theorem C4_unanchored_match_counterexample :
    DeltaSnapshot.ofEvent junkEvent = Except.ok junkSnap ∧
    resourceGrammar junkEvent.resource = false := by
  exact ⟨rfl, rfl⟩

/-- C4 amended: construction succeeds iff the unanchored regex finds a
(leftmost) substring match whose project group is the sentinel underscore;
every string that fully conforms to the spec grammar is accepted, but so are
strings that merely contain a conforming substring. -/
theorem C4_constructor_error_amended (e : RawEvent) :
    ((∃ s, DeltaSnapshot.ofEvent e = .ok s) ↔
      (∃ inst ref, findMatch e.resource.data = some ("_", inst, ref))) ∧
    (resourceGrammar e.resource = true → ∃ s, DeltaSnapshot.ofEvent e = .ok s) := by
  have hiff : (∃ s, DeltaSnapshot.ofEvent e = .ok s) ↔
      (∃ inst ref, findMatch e.resource.data = some ("_", inst, ref)) := by
    unfold DeltaSnapshot.ofEvent
    cases hm : findMatch e.resource.data with
    | none =>
      constructor
      · rintro ⟨s, hs⟩
        exact absurd hs (by simp)
      · rintro ⟨inst, ref, hr⟩
        exact absurd hr (by simp)
    | some r =>
      obtain ⟨project, inst, ref⟩ := r
      by_cases hp : project = "_"
      · subst hp
        constructor
        · intro _
          exact ⟨inst, ref, rfl⟩
        · intro _
          exact ⟨_, rfl⟩
      · constructor
        · rintro ⟨s, hs⟩
          have hs' : (if project = "_" then Except.ok (mkSnap e ref)
            else (Except.error
              "Expected project to be the sentinel in a Firebase Realtime Database event" :
              Except String DeltaSnapshot)) = Except.ok s := hs
          rw [if_neg hp] at hs'
          exact absurd hs' (by simp)
        · rintro ⟨inst', ref', hr⟩
          have hp' : project = "_" := congrArg Prod.fst (Option.some.inj hr)
          exact absurd hp' hp
  refine ⟨hiff, fun hg => ?_⟩
  obtain ⟨inst, ref, hm⟩ := matchAt_of_grammar hg
  exact hiff.mpr ⟨inst, ref, findMatch_of_matchAt hm⟩

/-- C4 amended witness: a fully conforming resource string is accepted. -/
theorem C4_constructor_error_amended_witness :
    resourceGrammar exEvent.resource = true ∧
    ∃ s, DeltaSnapshot.ofEvent exEvent = .ok s :=
  ⟨rfl, (C4_constructor_error_amended exEvent).2 rfl⟩

/-- C9 witness: navigating the example snapshot to `a/b` yields key `b`;
`child('')` keeps the root key. -/
theorem C9_key_round_trip_witness :
    pathParts "a/b" ≠ [] ∧ (exSnap.child "a/b").key = (pathParts "a/b").getLast? := by
  have hne : pathParts "a/b" ≠ [] := by decide
  exact ⟨hne, C9_key_round_trip.2.1 exSnap "a/b" hne⟩

end FirebaseDB
